import Mathlib

/-
Verification development for file_config_reader.py.

The Python module is shallowly embedded as executable Lean definitions:
  * Python str is Lean String; character-level operations are implemented
    over List Char (String.data), mirroring CPython's posixpath semantics
    (os.sep is "/").
  * The filesystem is a Snapshot value: an association list from absolute
    path to FileInfo (mtime, text lines, and the result an external JSON
    decoder would give for the file), plus an association list from
    directory path to the os.walk output for that directory, with each
    dirpath already taken relative to the walk root (os.path.relpath is
    pre-applied in the snapshot, so the root directory appears as ".").
  * Python dicts are insertion-ordered association lists; dict[k] = v is
    dictPut (replace in place or append), dict.get is alookup.
  * Raised exceptions become an Err value; distinct raise sites get
    distinct constructors.  mtimes (floats in Python) are modelled as Nat.
  * The two class-level caches are threaded explicitly; every stateful
    operation returns (result, state-after), also on error, so that cache
    mutations that survive a raised exception stay observable.
  * Config values are modelled as strings (the claims under study never
    inspect a non-string configuration value).
-/

namespace FCRModel

/-! ### Python string primitives -/

/-- Whitespace for Python str.strip (ASCII fragment). -/
def pySpace (c : Char) : Bool :=
  c == ' ' || c == '\t' || c == '\n' || c == '\r' || c == '\x0b' || c == '\x0c'

/-- str.strip() on a character list. -/
def trimL (l : List Char) : List Char :=
  ((l.dropWhile pySpace).reverse.dropWhile pySpace).reverse

/-- Python str.strip(). -/
def pyStrip (s : String) : String := ⟨trimL s.data⟩

/-- Drop leading '/' characters. -/
def dropSlashL (l : List Char) : List Char := l.dropWhile (· == '/')

/-- Drop trailing '/' characters. -/
def rstripSlashL (l : List Char) : List Char := (l.reverse.dropWhile (· == '/')).reverse

/-- Python str.strip(os.sep) with os.sep = "/". -/
def stripSlashL (l : List Char) : List Char := rstripSlashL (dropSlashL l)

/-- Python str.rstrip(os.sep). -/
def pyRstripSlash (s : String) : String := ⟨rstripSlashL s.data⟩

/-- Python str.count(os.sep): number of '/' characters. -/
def countSlashL (l : List Char) : Nat := l.countP (· == '/')

/-- Is the first list a prefix of the second (character-wise)? -/
def hasPfxL : List Char → List Char → Bool
  | [], _ => true
  | _ :: _, [] => false
  | p :: ps, s :: ss => p == s && hasPfxL ps ss

/-- Python str.startswith. -/
def pyStartswith (s pre : String) : Bool := hasPfxL pre.data s.data

/-- Python str.endswith. -/
def pyEndswith (s post : String) : Bool := hasPfxL post.data.reverse s.data.reverse

/-- Python str.split(sep) for a one-character separator (no maxsplit). -/
def splitChar (sep : Char) : List Char → List (List Char)
  | [] => [[]]
  | c :: cs =>
    let r := splitChar sep cs
    if c == sep then [] :: r
    else
      match r with
      | h :: t => (c :: h) :: t
      | [] => [[c]]

/-- sep.join on character lists. -/
def joinChar (sep : Char) : List (List Char) → List Char
  | [] => []
  | [x] => x
  | x :: y :: xs => x ++ sep :: joinChar sep (y :: xs)

/-- Python lexicographic string comparison (by code point), s <= t. -/
def strLeL : List Char → List Char → Bool
  | [], _ => true
  | _ :: _, [] => false
  | a :: as, b :: bs =>
    if a.toNat < b.toNat then true
    else if a.toNat = b.toNat then strLeL as bs
    else false

/-- Python s <= t on strings. -/
def pyStrLe (s t : String) : Bool := strLeL s.data t.data

/-- Insert into a sorted list, before the first element not below x. -/
def insertLe {α : Type} (le : α → α → Bool) (x : α) : List α → List α
  | [] => [x]
  | y :: ys => if le x y then x :: y :: ys else y :: insertLe le x ys

/-- Stable insertion sort. Python's list.sort is also a stable sort, and
for a total preorder the stable-sorted permutation is unique, so this
computes exactly what list.sort computes under the same key order. -/
def sortLe {α : Type} (le : α → α → Bool) : List α → List α
  | [] => []
  | x :: xs => insertLe le x (sortLe le xs)

/-! ### posixpath functions -/

/-- os.path.join(a, b) (posixpath, two arguments). -/
def pyJoin (a b : String) : String :=
  if pyStartswith b "/" then b
  else if a == "" || pyEndswith a "/" then a ++ b
  else a ++ "/" ++ b

/-- One iteration of posixpath.normpath's component loop. -/
def normStep (initialSlashes : Nat) (acc : List (List Char)) (comp : List Char) :
    List (List Char) :=
  if comp == [] || comp == ['.'] then acc
  else if comp != ['.', '.'] || (initialSlashes == 0 && acc.isEmpty)
          || (!acc.isEmpty && acc.getLast? == some ['.', '.']) then
    acc ++ [comp]
  else if !acc.isEmpty then acc.dropLast
  else acc

/-- The component loop of posixpath.normpath. -/
def normComps (initialSlashes : Nat) (comps : List (List Char)) : List (List Char) :=
  comps.foldl (normStep initialSlashes) []

/-- The number of leading slashes posixpath.normpath preserves. -/
def initSlashes (l : List Char) : Nat :=
  if hasPfxL ['/'] l then
    (if hasPfxL ['/', '/'] l && !(hasPfxL ['/', '/', '/'] l) then 2 else 1)
  else 0

/-- The reassembled character list of posixpath.normpath. -/
def normJoined (l : List Char) : List Char :=
  List.replicate (initSlashes l) '/' ++
    joinChar '/' (normComps (initSlashes l) (splitChar '/' l))

/-- os.path.normpath (posixpath). -/
def normpath (p : String) : String :=
  if p == "" then "."
  else if (normJoined p.data).isEmpty then "." else ⟨normJoined p.data⟩

/-- os.path.split (posixpath): (head, tail) at the last '/'. -/
def pySplitPath (p : String) : String × String :=
  let l := p.data
  let i := match l.reverse.findIdx? (· == '/') with
    | some k => l.length - k
    | none => 0
  let head := l.take i
  let tail := l.drop i
  let head2 := if !head.isEmpty && head.any (· != '/') then rstripSlashL head else head
  (⟨head2⟩, ⟨tail⟩)

/-- os.path.basename. -/
def basename (p : String) : String := (pySplitPath p).2

/-- os.path.dirname. -/
def dirname (p : String) : String := (pySplitPath p).1

/-- os.path.abspath relative to an (absolute) working directory cwd. -/
def abspath (cwd p : String) : String := normpath (pyJoin cwd p)

/-! ### Association lists (Python dict) -/

/-- dict.get k (insertion-ordered association list). -/
def alookup {α β : Type} [DecidableEq α] : List (α × β) → α → Option β
  | [], _ => none
  | (a, b) :: rest, k => if a = k then some b else alookup rest k

/-- dict[k] = v: replace in place, or append at the end. -/
def dictPut {α β : Type} [DecidableEq α] : List (α × β) → α → β → List (α × β)
  | [], k, v => [(k, v)]
  | (a, b) :: rest, k, v => if a = k then (k, v) :: rest else (a, b) :: dictPut rest k v

/-- dict.pop(k, None): remove the first binding of k. -/
def eraseKey {α β : Type} [DecidableEq α] : List (α × β) → α → List (α × β)
  | [], _ => []
  | (a, b) :: rest, k => if a = k then rest else (a, b) :: eraseKey rest k

/-- The invalidate_caches loop popping every key whose path component is p. -/
def dropPathEntries {β : Type} : List ((String × ConfTypes) × β) → String →
    List ((String × ConfTypes) × β)
  | [], _ => []
  | (key, e) :: rest, p =>
    if key.1 = p then dropPathEntries rest p else (key, e) :: dropPathEntries rest p

/-! ### Data model -/

/-- The two config kinds of the source's ConfTypes enum. -/
inductive ConfTypes
  | KEY_VALUE
  | JSON
deriving DecidableEq, Repr

/-- Exceptions raised by the module, one constructor per raise site kind.
fileNotFound: FileNotFoundError; missingRequiredKeys, missingRoot: KeyError;
valueError (malformed key=value line), invalidRoot, emptyName: ValueError;
jsonDecode: json.JSONDecodeError; notFoundUnderRoot, notFoundUnderScope:
FileNotFoundError from find. -/
inductive Err
  | fileNotFound
  | missingRequiredKeys
  | valueError
  | jsonDecode
  | missingRoot
  | invalidRoot
  | emptyName
  | notFoundUnderRoot
  | notFoundUnderScope
deriving DecidableEq, Repr

/-- A parsed configuration: insertion-ordered string-to-string mapping. -/
abbrev Config := List (String × String)

/-- One file of the snapshot: its mtime, its text content as a list of
lines (newlines stripped), and what the external JSON decoder yields on
its content (.error () when json.load would raise). -/
structure FileInfo where
  mtime : Nat
  lines : List String
  jsonVal : Except Unit Config

/-- One os.walk entry: (dirpath relative to the walk root, with "." for the
root itself — os.path.relpath pre-applied — and the filenames list). -/
abbrev WalkEntry := String × List String

/-- The tree index: filename, list of relative paths. -/
abbrev Tree := List (String × List String)

/-- A fixed filesystem snapshot: files by absolute path, and existing
directories by absolute path with their os.walk output. -/
structure Snapshot where
  files : List (String × FileInfo)
  dirs : List (String × List WalkEntry)

/-- os.path.exists for the snapshot. -/
def existsPath (s : Snapshot) (p : String) : Bool :=
  (alookup s.files p).isSome || (alookup s.dirs p).isSome

/-- One config-cache entry: last observed mtime plus parsed config. -/
structure CacheEntry where
  mtime : Nat
  config : Config
deriving DecidableEq, Repr

/-- The class-level _config_cache. -/
abbrev ConfigCache := List ((String × ConfTypes) × CacheEntry)

/-- The class-level _tree_cache. -/
abbrev TreeCache := List (String × Tree)

/-- Both class-level caches. -/
structure Caches where
  config : ConfigCache
  tree : TreeCache
deriving DecidableEq

/-! ### Configuration Loader -/

/-- line.split('=', 1) followed by tuple unpacking: none when the line has
no '=' (Python raises ValueError there). -/
def splitEq1 (l : String) : Option (String × String) :=
  match splitChar '=' l.data with
  | [_] => none
  | x :: rest => some (⟨x⟩, ⟨joinChar '=' rest⟩)
  | [] => none

/-- The key=value parsing loop of load_config. -/
def parseKV : List String → Config → Except Err Config
  | [], cfg => .ok cfg
  | line :: rest, cfg =>
    let l := pyStrip line
    if l == "" || pyStartswith l "#" then parseKV rest cfg
    else
      match splitEq1 l with
      | none => .error .valueError
      | some kv => parseKV rest (dictPut cfg (pyStrip kv.1) (pyStrip kv.2))

/-- The required-keys check shared by load_config and load_json. -/
def missingKeys (cfg : Config) (req : Option (List String)) : List String :=
  (req.getD []).filter (fun k => (alookup cfg k).isNone)

/-- Raise KeyError when some required key is missing, else return cfg. -/
def checkRequired (cfg : Config) (req : Option (List String)) : Except Err Config :=
  if missingKeys cfg req = [] then .ok cfg else .error .missingRequiredKeys

/-- load_config: existence check, then key=value parse (or JSON decode via
load_json, whose own existence check coincides), then required-keys check.
A path present only as a directory is modelled as absent (opening a
directory fails in Python too). -/
def load_config (s : Snapshot) (path : String) (t : ConfTypes)
    (req : Option (List String)) : Except Err Config :=
  match alookup s.files path with
  | none => .error .fileNotFound
  | some fi =>
    match t with
    | .JSON =>
      match fi.jsonVal with
      | .error _ => .error .jsonDecode
      | .ok cfg => checkRequired cfg req
    | .KEY_VALUE =>
      match parseKV fi.lines [] with
      | .error e => .error e
      | .ok cfg => checkRequired cfg req

/-- ' '.join(parts) for strings. -/
def joinSp (l : List String) : String := ⟨joinChar ' ' (l.map String.data)⟩

/-- The statement-accumulation loop of load_sql. -/
def sqlLines : List String → List String → List String
  | [], cur => if cur.isEmpty then [] else [pyStrip (joinSp cur)]
  | line :: rest, cur =>
    let l := pyStrip line
    if pyStartswith l "--" || l == "" then sqlLines rest cur
    else
      let cur2 := cur ++ [l]
      if pyEndswith l ";" then pyStrip (joinSp cur2) :: sqlLines rest []
      else sqlLines rest cur2

/-- load_sql: existence check, then statement splitting. -/
def load_sql (s : Snapshot) (path : String) : Except Err (List String) :=
  match alookup s.files path with
  | none => .error .fileNotFound
  | some fi => .ok (sqlLines fi.lines [])

/-! ### Tree Indexer -/

/-- The source's _depth: strip '/' at both ends, then 1 + number of '/'. -/
def tree_depth (p : String) : Nat :=
  let l := stripSlashL p.data
  if l.isEmpty then 1 else countSlashL l + 1

/-- The sort key order of tree_scan: ascending (depth, lexicographic path). -/
def pathKeyLE (p q : String) : Bool :=
  if tree_depth p < tree_depth q then true
  else if tree_depth p = tree_depth q then pyStrLe p q
  else false

/-- rel_path construction in tree_scan's walk loop. -/
def relPathOf (relDir fname : String) : String :=
  if relDir == "." then fname else normpath (pyJoin relDir fname)

/-- index.setdefault(fname, []).append(relPath). -/
def insertEntry : Tree → String → String → Tree
  | [], f, r => [(f, [r])]
  | (g, ps) :: rest, f, r =>
    if g = f then (g, ps ++ [r]) :: rest else (g, ps) :: insertEntry rest f r

/-- The (fname, relPath) pairs inserted by the walk loop of tree_scan, in
insertion order (filenames.sort() applied per directory). -/
def entriesOf : List WalkEntry → List (String × String)
  | [] => []
  | de :: rest =>
    (sortLe pyStrLe de.2).map (fun fn => (fn, relPathOf de.1 fn)) ++ entriesOf rest

/-- The index after the walk loop, before the per-group sort. -/
def buildIndex (walk : List WalkEntry) : Tree :=
  (entriesOf walk).foldl (fun idx e => insertEntry idx e.1 e.2) []

/-- The per-group paths.sort(key=(depth, path)) pass. -/
def sortIndex (idx : Tree) : Tree :=
  idx.map (fun g => (g.1, sortLe pathKeyLE g.2))

/-- tree_scan: invalid-root check, walk, group, sort. -/
def tree_scan (s : Snapshot) (rootAbs : String) : Except Err Tree :=
  if rootAbs == "" || !(existsPath s rootAbs) then .error .invalidRoot
  else .ok (sortIndex (buildIndex ((alookup s.dirs rootAbs).getD [])))

/-! ### Cache Layer -/

/-- _get_config: existence check, mtime-gated cache, insert on (re)parse.
Returns the cache state after the call even when raising. -/
def _get_config (s : Snapshot) (cache : ConfigCache) (path : String)
    (t : ConfTypes) (req : Option (List String)) : Except Err Config × ConfigCache :=
  match alookup s.files path with
  | none => (.error .fileNotFound, cache)
  | some fi =>
    match alookup cache (path, t) with
    | some e =>
      if e.mtime = fi.mtime then (.ok e.config, cache)
      else
        match load_config s path t req with
        | .error er => (.error er, cache)
        | .ok cfg => (.ok cfg, dictPut cache (path, t) ⟨fi.mtime, cfg⟩)
    | none =>
      match load_config s path t req with
      | .error er => (.error er, cache)
      | .ok cfg => (.ok cfg, dictPut cache (path, t) ⟨fi.mtime, cfg⟩)

/-- _get_tree: lazily populated tree cache. -/
def _get_tree (s : Snapshot) (tc : TreeCache) (rootAbs : String) :
    Except Err Tree × TreeCache :=
  match alookup tc rootAbs with
  | some t => (.ok t, tc)
  | none =>
    match tree_scan s rootAbs with
    | .error e => (.error e, tc)
    | .ok t => (.ok t, dictPut tc rootAbs t)

/-- invalidate_caches(config_path=, root=). -/
def invalidate_caches (c : Caches) (config_path : Option String)
    (root : Option String) (cwd : String) : Caches :=
  match config_path, root with
  | none, none => ⟨[], []⟩
  | cp, rt =>
    let cc := match cp with
      | some p => dropPathEntries c.config p
      | none => c.config
    let tc := match rt with
      | some r => eraseKey c.tree (abspath cwd r)
      | none => c.tree
    ⟨cc, tc⟩

/-! ### Reader Facade -/

/-- The three instance fields set by a successful constructor. -/
structure Facade where
  config : Config
  root : String
  tree : Tree

/-- The body of FileConfigReader.__init__ after the optional force-refresh
invalidation, taking the cache state c0 at that point: config load through
the cache, mandatory root key, tree build through the cache. Returns the
cache state after the call even when raising. -/
def fcr_init_core (s : Snapshot) (cwd : String) (c0 : Caches) (config_path : String)
    (t : ConfTypes) (req : Option (List String)) : Except Err Facade × Caches :=
  match _get_config s c0.config config_path t req with
  | (.error e, cc) => (.error e, ⟨cc, c0.tree⟩)
  | (.ok cfg, cc) =>
    let rootV := (alookup cfg "root").getD ""
    if rootV == "" then (.error .missingRoot, ⟨cc, c0.tree⟩)
    else
      let rootAbs := abspath cwd rootV
      match _get_tree s c0.tree rootAbs with
      | (.error e, tc) => (.error e, ⟨cc, tc⟩)
      | (.ok tr, tc) => (.ok ⟨cfg, rootAbs, tr⟩, ⟨cc, tc⟩)

/-- FileConfigReader.__init__: optional force-refresh invalidation first,
then the constructor body. -/
def fcr_init (s : Snapshot) (cwd : String) (caches : Caches) (config_path : String)
    (t : ConfTypes) (req : Option (List String)) (force_refresh : Bool) :
    Except Err Facade × Caches :=
  fcr_init_core s cwd
    (if force_refresh then invalidate_caches caches (some config_path) none cwd else caches)
    config_path t req

/-! ### Lookup Resolver -/

/-- The effective search scope of find: normpath(join(start or "", hint))
when either part is non-empty, else "". -/
def effectiveScope (start : Option String) (pathHint : String) : String :=
  let st := start.getD ""
  if st != "" || pathHint != "" then normpath (pyJoin st pathHint) else ""

/-- The path-selection part of find (lines up to the decoder dispatch):
which relative path is chosen from the cached tree, or which error is
raised. -/
def find_select (tree : Tree) (name : String) (start : Option String) :
    Except Err String :=
  if name == "" then .error .emptyName
  else
    match alookup tree (basename (normpath name)) with
    | none => .error .notFoundUnderRoot
    | some [] => .error .notFoundUnderRoot
    | some (c :: cs) =>
      if effectiveScope start (dirname (normpath name)) == ""
          || effectiveScope start (dirname (normpath name)) == "." then .ok c
      else
        match (c :: cs).find? (fun rp =>
            rp == pyRstripSlash (effectiveScope start (dirname (normpath name)))
            || pyStartswith rp
                (pyRstripSlash (effectiveScope start (dirname (normpath name))) ++ "/")) with
        | some rp => .ok rp
        | none => .error .notFoundUnderScope

/-! ### Association-list laws -/

theorem alookup_nil {α β : Type} [DecidableEq α] (k : α) :
    alookup ([] : List (α × β)) k = none := rfl

theorem alookup_cons {α β : Type} [DecidableEq α] (a : α) (b : β) (l : List (α × β)) (k : α) :
    alookup ((a, b) :: l) k = if a = k then some b else alookup l k := rfl

theorem dropPathEntries_cons {β : Type} (q : String) (st : ConfTypes) (e : β)
    (tl : List ((String × ConfTypes) × β)) (p : String) :
    dropPathEntries (((q, st), e) :: tl) p =
      if q = p then dropPathEntries tl p else ((q, st), e) :: dropPathEntries tl p := rfl

theorem alookup_dictPut {α β : Type} [DecidableEq α] (l : List (α × β)) (k : α) (v : β)
    (k' : α) : alookup (dictPut l k v) k' = if k' = k then some v else alookup l k' := by
  induction l with
  | nil =>
    by_cases h : k' = k
    · subst h; simp [dictPut, alookup]
    · simp [dictPut, alookup, h, Ne.symm h]
  | cons hd tl ih =>
    obtain ⟨a, b⟩ := hd
    by_cases hak : a = k
    · subst hak
      by_cases h2 : k' = a
      · subst h2; simp [dictPut, alookup]
      · simp [dictPut, alookup, h2, Ne.symm h2]
    · by_cases h2 : k' = a
      · subst h2
        simp [dictPut, alookup, hak, Ne.symm hak]
      · simp [dictPut, alookup, hak, h2, Ne.symm h2, ih]

theorem alookup_eq_none_of_not_mem {α β : Type} [DecidableEq α] (l : List (α × β)) (k : α)
    (h : k ∉ l.map Prod.fst) : alookup l k = none := by
  induction l with
  | nil => rfl
  | cons hd tl ih =>
    obtain ⟨a, b⟩ := hd
    simp only [List.map_cons, List.mem_cons, not_or] at h
    simp only [alookup]
    rw [if_neg (Ne.symm h.1), ih h.2]

theorem alookup_eraseKey_of_nodup {α β : Type} [DecidableEq α] (l : List (α × β)) (k k' : α)
    (h : (l.map Prod.fst).Nodup) :
    alookup (eraseKey l k) k' = if k' = k then none else alookup l k' := by
  induction l with
  | nil => simp [eraseKey, alookup]
  | cons hd tl ih =>
    obtain ⟨a, b⟩ := hd
    simp only [List.map_cons, List.nodup_cons] at h
    by_cases hak : a = k
    · subst hak
      simp only [eraseKey, if_pos rfl]
      by_cases hk' : k' = a
      · subst hk'
        rw [if_pos rfl]
        exact alookup_eq_none_of_not_mem tl k' h.1
      · rw [if_neg hk']
        simp [alookup, Ne.symm hk']
    · by_cases hk' : k' = a
      · subst hk'
        simp [eraseKey, alookup, hak]
      · simp only [eraseKey, if_neg hak, alookup]
        rw [if_neg (Ne.symm hk'), ih h.2]
        by_cases h2 : k' = k
        · simp [h2]
        · simp [h2, alookup, Ne.symm hk']

theorem alookup_dropPathEntries {β : Type} (l : List ((String × ConfTypes) × β))
    (p p2 : String) (t : ConfTypes) :
    alookup (dropPathEntries l p) (p2, t) = if p2 = p then none else alookup l (p2, t) := by
  induction l with
  | nil => simp [dropPathEntries, alookup_nil]
  | cons hd tl ih =>
    obtain ⟨⟨q, st⟩, e⟩ := hd
    rw [dropPathEntries_cons]
    by_cases hq : q = p
    · rw [if_pos hq, ih]
      by_cases h2 : p2 = p
      · simp [h2]
      · rw [if_neg h2, if_neg h2, alookup_cons,
          if_neg (fun hh : (q, st) = (p2, t) => h2 (((congrArg Prod.fst hh).symm).trans hq))]
    · rw [if_neg hq, alookup_cons, ih]
      by_cases hkey : (q, st) = (p2, t)
      · have hq2 : q = p2 := congrArg Prod.fst hkey
        rw [if_pos hkey, if_neg (fun hh : p2 = p => hq (hq2.trans hh)), alookup_cons,
          if_pos hkey]
      · rw [if_neg hkey]
        by_cases h2 : p2 = p
        · simp [h2]
        · rw [if_neg h2, if_neg h2, alookup_cons, if_neg hkey]

/-! ### Derived views of the tree index (for stating C1) -/

/-- The candidate list a tree index associates to a filename. -/
def pathsOf (idx : Tree) (f : String) : List String := (alookup idx f).getD []

/-- All relative paths the walk yields for files named f, in walk order. -/
def collectPaths : List WalkEntry → String → List String
  | [], _ => []
  | de :: rest, f =>
    (de.2.filter (fun fn => fn == f)).map (relPathOf de.1) ++ collectPaths rest f

/-- The relative paths among a list of walk-loop insertions keyed f. -/
def selEntries (es : List (String × String)) (g : String) : List String :=
  es.filterMap (fun e => if e.1 = g then some e.2 else none)

/-! ### Order and path lemmas -/

theorem beq_false_of_ne {α : Type} [BEq α] [LawfulBEq α] {a b : α} (h : a ≠ b) :
    (a == b) = false := by
  cases hb : a == b with
  | false => rfl
  | true => exact absurd (eq_of_beq hb) h

theorem strLeL_cons_iff (a b : Char) (as bs : List Char) :
    strLeL (a :: as) (b :: bs) = true ↔
      a.toNat < b.toNat ∨ (a.toNat = b.toNat ∧ strLeL as bs = true) := by
  simp only [strLeL]
  by_cases h1 : a.toNat < b.toNat
  · simp [h1]
  · by_cases h2 : a.toNat = b.toNat <;> simp [h1, h2]

theorem strLeL_trans (x : List Char) :
    ∀ y z, strLeL x y = true → strLeL y z = true → strLeL x z = true := by
  induction x with
  | nil => intro y z h1 h2; rfl
  | cons a as ih =>
    intro y z h1 h2
    cases y with
    | nil => simp [strLeL] at h1
    | cons b bs =>
      cases z with
      | nil => simp [strLeL] at h2
      | cons c cs =>
        rw [strLeL_cons_iff] at h1 h2 ⊢
        rcases h1 with h1 | ⟨h1, h1'⟩ <;> rcases h2 with h2 | ⟨h2, h2'⟩
        · exact Or.inl (by omega)
        · exact Or.inl (by omega)
        · exact Or.inl (by omega)
        · exact Or.inr ⟨by omega, ih bs cs h1' h2'⟩

theorem strLeL_total (x : List Char) :
    ∀ y, strLeL x y = true ∨ strLeL y x = true := by
  induction x with
  | nil => intro y; exact Or.inl rfl
  | cons a as ih =>
    intro y
    cases y with
    | nil => exact Or.inr rfl
    | cons b bs =>
      rw [strLeL_cons_iff, strLeL_cons_iff]
      rcases Nat.lt_trichotomy a.toNat b.toNat with h | h | h
      · exact Or.inl (Or.inl h)
      · rcases ih bs with h2 | h2
        · exact Or.inl (Or.inr ⟨h, h2⟩)
        · exact Or.inr (Or.inr ⟨h.symm, h2⟩)
      · exact Or.inr (Or.inl h)

theorem pathKeyLE_iff (p q : String) :
    pathKeyLE p q = true ↔
      tree_depth p < tree_depth q ∨ (tree_depth p = tree_depth q ∧ pyStrLe p q = true) := by
  simp only [pathKeyLE]
  by_cases h1 : tree_depth p < tree_depth q
  · simp [h1]
  · by_cases h2 : tree_depth p = tree_depth q <;> simp [h1, h2]

theorem pathKeyLE_trans (a b c : String) (h1 : pathKeyLE a b = true)
    (h2 : pathKeyLE b c = true) : pathKeyLE a c = true := by
  rw [pathKeyLE_iff] at h1 h2 ⊢
  rcases h1 with h1 | ⟨h1, h1'⟩ <;> rcases h2 with h2 | ⟨h2, h2'⟩
  · exact Or.inl (by omega)
  · exact Or.inl (by omega)
  · exact Or.inl (by omega)
  · exact Or.inr ⟨by omega, strLeL_trans a.data b.data c.data h1' h2'⟩

theorem pathKeyLE_total (a b : String) :
    (pathKeyLE a b || pathKeyLE b a) = true := by
  rcases Nat.lt_trichotomy (tree_depth a) (tree_depth b) with h | h | h
  · have : pathKeyLE a b = true := (pathKeyLE_iff a b).mpr (Or.inl h)
    simp [this]
  · rcases strLeL_total a.data b.data with h2 | h2
    · have : pathKeyLE a b = true := (pathKeyLE_iff a b).mpr (Or.inr ⟨h, h2⟩)
      simp [this]
    · have : pathKeyLE b a = true := (pathKeyLE_iff b a).mpr (Or.inr ⟨h.symm, h2⟩)
      simp [this]
  · have : pathKeyLE b a = true := (pathKeyLE_iff b a).mpr (Or.inl h)
    simp [this]

theorem insertLe_perm {α : Type} (le : α → α → Bool) (x : α) (l : List α) :
    (insertLe le x l).Perm (x :: l) := by
  induction l with
  | nil => exact List.Perm.refl _
  | cons y ys ih =>
    unfold insertLe
    by_cases h : le x y = true
    · rw [if_pos h]
    · rw [if_neg h]
      exact (ih.cons y).trans (List.Perm.swap x y ys)

theorem sortLe_perm {α : Type} (le : α → α → Bool) (l : List α) :
    (sortLe le l).Perm l := by
  induction l with
  | nil => exact List.Perm.refl _
  | cons x xs ih => exact (insertLe_perm le x (sortLe le xs)).trans (ih.cons x)

theorem insertLe_sorted {α : Type} (le : α → α → Bool)
    (htrans : ∀ a b c, le a b = true → le b c = true → le a c = true)
    (htot : ∀ a b, (le a b || le b a) = true) (x : α) (l : List α)
    (hl : l.Pairwise (fun a b => le a b = true)) :
    (insertLe le x l).Pairwise (fun a b => le a b = true) := by
  induction l with
  | nil => simp [insertLe]
  | cons y ys ih =>
    obtain ⟨hy, hys⟩ := List.pairwise_cons.mp hl
    unfold insertLe
    by_cases h : le x y = true
    · rw [if_pos h]
      refine List.pairwise_cons.mpr ⟨?_, hl⟩
      intro b hb
      rcases List.mem_cons.mp hb with rfl | hb2
      · exact h
      · exact htrans x y b h (hy b hb2)
    · rw [if_neg h]
      refine List.pairwise_cons.mpr ⟨?_, ih hys⟩
      intro b hb
      have hyx : le y x = true := by
        have := htot x y
        rcases Bool.or_eq_true_iff.mp this with h2 | h2
        · exact absurd h2 h
        · exact h2
      rcases List.mem_cons.mp ((insertLe_perm le x ys).mem_iff.mp hb) with rfl | hb3
      · exact hyx
      · exact hy b hb3

theorem sortLe_sorted {α : Type} (le : α → α → Bool)
    (htrans : ∀ a b c, le a b = true → le b c = true → le a c = true)
    (htot : ∀ a b, (le a b || le b a) = true) (l : List α) :
    (sortLe le l).Pairwise (fun a b => le a b = true) := by
  induction l with
  | nil => exact List.Pairwise.nil
  | cons x xs ih => exact insertLe_sorted le htrans htot x (sortLe le xs) ih

theorem alookup_insertEntry (idx : Tree) (f r g : String) :
    alookup (insertEntry idx f r) g =
      if g = f then some (pathsOf idx f ++ [r]) else alookup idx g := by
  induction idx with
  | nil =>
    by_cases h : g = f
    · subst h; simp [insertEntry, alookup, pathsOf]
    · simp [insertEntry, alookup, pathsOf, h, Ne.symm h]
  | cons hd tl ih =>
    obtain ⟨a, ps⟩ := hd
    by_cases haf : a = f
    · subst haf
      by_cases hg : g = a
      · subst hg; simp [insertEntry, alookup, pathsOf]
      · simp [insertEntry, alookup, pathsOf, hg, Ne.symm hg]
    · by_cases hg : g = a
      · subst hg
        simp [insertEntry, alookup, pathsOf, haf, fun hh : g = f => haf (hh ▸ rfl)]
      · simp only [insertEntry, if_neg haf, alookup, if_neg (Ne.symm hg), ih]
        by_cases hgf : g = f
        · subst hgf
          simp [pathsOf, alookup, Ne.symm hg]
        · simp [hgf]

theorem pathsOf_foldl_insert (es : List (String × String)) (idx : Tree) (g : String) :
    pathsOf (es.foldl (fun i e => insertEntry i e.1 e.2) idx) g =
      pathsOf idx g ++ selEntries es g := by
  induction es generalizing idx with
  | nil => simp [selEntries]
  | cons e es ih =>
    obtain ⟨f, r⟩ := e
    simp only [List.foldl_cons, ih]
    by_cases h : f = g
    · subst h
      have hins : pathsOf (insertEntry idx f r) f = pathsOf idx f ++ [r] := by
        simp [pathsOf, alookup_insertEntry]
      rw [hins]
      simp [selEntries, List.filterMap_cons, List.append_assoc]
    · have hins : pathsOf (insertEntry idx f r) g = pathsOf idx g := by
        simp [pathsOf, alookup_insertEntry, Ne.symm h]
      rw [hins]
      simp [selEntries, List.filterMap_cons, h]

theorem selEntries_append (xs ys : List (String × String)) (g : String) :
    selEntries (xs ++ ys) g = selEntries xs g ++ selEntries ys g := by
  simp [selEntries, List.filterMap_append]

theorem selEntries_block (d : String) (fns : List String) (g : String) :
    selEntries (fns.map (fun fn => (fn, relPathOf d fn))) g =
      (fns.filter (fun fn => fn == g)).map (relPathOf d) := by
  induction fns with
  | nil => rfl
  | cons fn fns ih =>
    by_cases h : fn = g
    · subst h
      simpa [selEntries, List.filterMap_cons, List.filter_cons] using ih
    · simpa [selEntries, List.filterMap_cons, List.filter_cons, h, beq_false_of_ne h] using ih

theorem selEntries_entriesOf_perm (walk : List WalkEntry) (g : String) :
    (selEntries (entriesOf walk) g).Perm (collectPaths walk g) := by
  induction walk with
  | nil => simp [entriesOf, selEntries, collectPaths]
  | cons de rest ih =>
    simp only [entriesOf, collectPaths, selEntries_append]
    refine List.Perm.append ?_ ih
    rw [selEntries_block]
    exact ((sortLe_perm pyStrLe de.2).filter _).map _

/-- A normal path component: non-empty, slash-free, and neither "." nor "..". -/
def GoodComp (c : List Char) : Prop :=
  c ≠ [] ∧ (∀ ch ∈ c, ch ≠ '/') ∧ c ≠ ['.'] ∧ c ≠ ['.', '.']

/-- The walk's rel_dir for a directory with the given name components:
"." for the root itself, the "/"-joined components below it. -/
def dirStr : List (List Char) → String
  | [] => "."
  | c :: cs => ⟨joinChar '/' (c :: cs)⟩

theorem hasPfxL_slash_false (l : List Char) (h : l.head? ≠ some '/') :
    hasPfxL ['/'] l = false := by
  cases l with
  | nil => rfl
  | cons c rest =>
    have hc : c ≠ '/' := fun hh => h (by rw [hh]; rfl)
    simp [hasPfxL, beq_false_of_ne (Ne.symm hc)]

theorem splitChar_no_sep (sep : Char) (l : List Char) (h : ∀ ch ∈ l, ch ≠ sep) :
    splitChar sep l = [l] := by
  induction l with
  | nil => rfl
  | cons c cs ih =>
    have hc : (c == sep) = false := beq_false_of_ne (h c (List.mem_cons_self c cs))
    have ih' := ih (fun ch hch => h ch (List.mem_cons_of_mem c hch))
    simp [splitChar, hc, ih']

theorem splitChar_append_sep (sep : Char) (x r : List Char) (h : ∀ ch ∈ x, ch ≠ sep) :
    splitChar sep (x ++ sep :: r) = x :: splitChar sep r := by
  induction x with
  | nil => simp [splitChar]
  | cons c cs ih =>
    have hc : (c == sep) = false := beq_false_of_ne (h c (List.mem_cons_self c cs))
    have ih' := ih (fun ch hch => h ch (List.mem_cons_of_mem c hch))
    simp [splitChar, hc, ih']

theorem joinChar_append_last (sep : Char) (cs : List (List Char)) (x : List Char)
    (h : cs ≠ []) : joinChar sep (cs ++ [x]) = joinChar sep cs ++ sep :: x := by
  induction cs with
  | nil => exact absurd rfl h
  | cons c cs ih =>
    cases cs with
    | nil => simp [joinChar]
    | cons c2 cs2 =>
      have ih' := ih (by simp)
      have hL : joinChar sep ((c :: c2 :: cs2) ++ [x]) =
          c ++ sep :: joinChar sep ((c2 :: cs2) ++ [x]) := rfl
      rw [hL, ih',
        show joinChar sep (c :: c2 :: cs2) = c ++ sep :: joinChar sep (c2 :: cs2) from rfl]
      simp [List.append_assoc]

theorem joinChar_facts (comps : List (List Char)) (hne : comps ≠ [])
    (hg : ∀ c ∈ comps, c ≠ [] ∧ ∀ ch ∈ c, ch ≠ '/') :
    joinChar '/' comps ≠ []
    ∧ (joinChar '/' comps).head? ≠ some '/'
    ∧ (joinChar '/' comps).getLast? ≠ some '/'
    ∧ countSlashL (joinChar '/' comps) + 1 = comps.length := by
  induction comps with
  | nil => exact absurd rfl hne
  | cons x comps ih =>
    obtain ⟨hx, hxs⟩ := hg x (List.mem_cons_self x comps)
    cases comps with
    | nil =>
      have hcount : countSlashL x = 0 :=
        List.countP_eq_zero.mpr (fun a ha hb => hxs a ha (eq_of_beq hb))
      refine ⟨hx, ?_, ?_, by simp [joinChar, hcount]⟩
      · cases x with
        | nil => exact absurd rfl hx
        | cons c crest =>
          show (c :: crest).head? ≠ some '/'
          intro hcon
          exact hxs c (List.mem_cons_self c crest) (Option.some.inj hcon)
      · show x.getLast? ≠ some '/'
        rw [List.getLast?_eq_getLast x hx]
        intro hcon
        exact hxs _ (List.getLast_mem hx) (Option.some.inj hcon)
    | cons y ys =>
      obtain ⟨hjne, hjh, hjl, hjc⟩ :=
        ih (by simp) (fun c hc => hg c (List.mem_cons_of_mem x hc))
      have hshape : joinChar '/' (x :: y :: ys) = x ++ '/' :: joinChar '/' (y :: ys) := rfl
      refine ⟨?_, ?_, ?_, ?_⟩
      · rw [hshape]
        cases x with
        | nil => exact absurd rfl hx
        | cons c crest => simp
      · rw [hshape]
        cases x with
        | nil => exact absurd rfl hx
        | cons c crest =>
          show (c :: (crest ++ '/' :: joinChar '/' (y :: ys))).head? ≠ some '/'
          intro hcon
          exact hxs c (List.mem_cons_self c crest) (Option.some.inj hcon)
      · rw [hshape, List.getLast?_append]
        obtain ⟨a, ha⟩ : ∃ a, (joinChar '/' (y :: ys)).getLast? = some a :=
          ⟨_, List.getLast?_eq_getLast _ hjne⟩
        have h2 : ('/' :: joinChar '/' (y :: ys)).getLast? = some a := by
          rw [show ('/' :: joinChar '/' (y :: ys)) = ['/'] ++ joinChar '/' (y :: ys) from rfl,
            List.getLast?_append, ha]
          rfl
        rw [h2]
        intro hcon
        apply hjl
        rw [ha]
        exact hcon
      · rw [hshape]
        have hcx : countSlashL x = 0 :=
          List.countP_eq_zero.mpr (fun a ha hb => hxs a ha (eq_of_beq hb))
        have hcapp : countSlashL (x ++ '/' :: joinChar '/' (y :: ys)) =
            countSlashL x + countSlashL ('/' :: joinChar '/' (y :: ys)) :=
          List.countP_append _ _ _
        have hccons : countSlashL ('/' :: joinChar '/' (y :: ys)) =
            countSlashL (joinChar '/' (y :: ys)) + 1 := by
          simp [countSlashL, List.countP_cons]
        rw [hcapp, hcx, hccons]
        simp only [List.length_cons] at hjc ⊢
        omega

theorem foldl_normStep_good (isl : Nat) (comps : List (List Char)) :
    ∀ acc, (∀ c ∈ comps, c ≠ [] ∧ c ≠ ['.'] ∧ c ≠ ['.', '.']) →
      comps.foldl (normStep isl) acc = acc ++ comps := by
  induction comps with
  | nil => intro acc _; simp
  | cons c cs ih =>
    intro acc hg
    obtain ⟨h1, h2, h3⟩ := hg c (List.mem_cons_self c cs)
    have hstep : normStep isl acc c = acc ++ [c] := by
      simp [normStep, beq_false_of_ne h1, beq_false_of_ne h2, beq_false_of_ne h3, bne]
    rw [List.foldl_cons, hstep, ih (acc ++ [c]) (fun d hd => hg d (List.mem_cons_of_mem c hd))]
    simp

theorem splitChar_joinChar (comps : List (List Char)) (hne : comps ≠ [])
    (hg : ∀ c ∈ comps, ∀ ch ∈ c, ch ≠ '/') :
    splitChar '/' (joinChar '/' comps) = comps := by
  induction comps with
  | nil => exact absurd rfl hne
  | cons x cs ih =>
    cases cs with
    | nil => exact splitChar_no_sep '/' x (hg x (List.mem_cons_self x []))
    | cons y ys =>
      have hshape : joinChar '/' (x :: y :: ys) = x ++ '/' :: joinChar '/' (y :: ys) := rfl
      rw [hshape, splitChar_append_sep '/' x _ (hg x (List.mem_cons_self x (y :: ys))),
        ih (by simp) (fun c hc => hg c (List.mem_cons_of_mem x hc))]

theorem normpath_joinChar (comps : List (List Char)) (hne : comps ≠ [])
    (hg : ∀ c ∈ comps, GoodComp c) :
    normpath ⟨joinChar '/' comps⟩ = ⟨joinChar '/' comps⟩ := by
  obtain ⟨hjne, hjh, hjl, hjc⟩ :=
    joinChar_facts comps hne (fun c hc => ⟨(hg c hc).1, (hg c hc).2.1⟩)
  have hbeq : ((⟨joinChar '/' comps⟩ : String) == "") = false := by
    apply beq_false_of_ne
    intro hh
    exact hjne (congrArg String.data hh)
  have hpfx : hasPfxL ['/'] (joinChar '/' comps) = false := hasPfxL_slash_false _ hjh
  have hisl : initSlashes (joinChar '/' comps) = 0 := by
    simp [initSlashes, hpfx]
  have hsplit : splitChar '/' (joinChar '/' comps) = comps :=
    splitChar_joinChar comps hne (fun c hc => (hg c hc).2.1)
  have hnorm : normComps 0 comps = comps := by
    have := foldl_normStep_good 0 comps []
      (fun c hc => ⟨(hg c hc).1, (hg c hc).2.2.1, (hg c hc).2.2.2⟩)
    simpa [normComps] using this
  have hjoined : normJoined (joinChar '/' comps) = joinChar '/' comps := by
    simp [normJoined, hisl, hsplit, hnorm]
  unfold normpath
  rw [hbeq]
  show (if (normJoined (joinChar '/' comps)).isEmpty then "." else ⟨normJoined (joinChar '/' comps)⟩) = _
  rw [hjoined, if_neg (by simp [hjne])]

theorem tree_depth_of_clean (l : List Char) (hne : l ≠ [])
    (hhead : l.head? ≠ some '/') (hlast : l.getLast? ≠ some '/') :
    tree_depth ⟨l⟩ = countSlashL l + 1 := by
  have h1 : l.dropWhile (· == '/') = l := by
    cases l with
    | nil => rfl
    | cons c rest =>
      have hc : c ≠ '/' := fun hh => hhead (by rw [hh]; rfl)
      rw [List.dropWhile_cons, if_neg (fun hb => hc (eq_of_beq hb))]
  have hstrip : stripSlashL l = l := by
    show rstripSlashL (dropSlashL l) = l
    rw [show dropSlashL l = l from h1]
    show (l.reverse.dropWhile (· == '/')).reverse = l
    cases hrev : l.reverse with
    | nil =>
      have : l = [] := by simpa using congrArg List.reverse hrev
      exact absurd this hne
    | cons c rest =>
      have hgl : l.getLast? = some c := by rw [← List.head?_reverse, hrev]; rfl
      have hc : c ≠ '/' := fun hh => hlast (by rw [hgl, hh])
      rw [List.dropWhile_cons, if_neg (fun hb => hc (eq_of_beq hb)), ← hrev,
        List.reverse_reverse]
  show (if (stripSlashL l).isEmpty then 1 else countSlashL (stripSlashL l) + 1) = _
  rw [hstrip, if_neg (by simp [hne])]

theorem tree_depth_relPathOf (dirComps : List (List Char)) (fname : List Char)
    (hdir : ∀ c ∈ dirComps, GoodComp c) (hf : GoodComp fname) :
    tree_depth (relPathOf (dirStr dirComps) ⟨fname⟩) = dirComps.length + 1 := by
  obtain ⟨hf1, hf2, hf3, hf4⟩ := hf
  have hfhead : fname.head? ≠ some '/' := by
    cases fname with
    | nil => exact absurd rfl hf1
    | cons c rest => exact fun hcon => hf2 c (List.mem_cons_self c rest) (Option.some.inj hcon)
  have hflast : fname.getLast? ≠ some '/' := by
    rw [List.getLast?_eq_getLast fname hf1]
    exact fun hcon => hf2 _ (List.getLast_mem hf1) (Option.some.inj hcon)
  cases dirComps with
  | nil =>
    have hrel : relPathOf (dirStr []) ⟨fname⟩ = ⟨fname⟩ := by
      simp [relPathOf, dirStr]
    have hc0 : countSlashL fname = 0 :=
      List.countP_eq_zero.mpr (fun a ha hb => hf2 a ha (eq_of_beq hb))
    rw [hrel, tree_depth_of_clean fname hf1 hfhead hflast, hc0]
    simp
  | cons c0 cs0 =>
    have hgj : ∀ c ∈ (c0 :: cs0), c ≠ [] ∧ ∀ ch ∈ c, ch ≠ '/' :=
      fun c hc => ⟨(hdir c hc).1, (hdir c hc).2.1⟩
    obtain ⟨hjne, hjh, hjl, hjc⟩ := joinChar_facts (c0 :: cs0) (by simp) hgj
    have hnotdot : ((⟨joinChar '/' (c0 :: cs0)⟩ : String) == ".") = false := by
      apply beq_false_of_ne
      intro hh
      have hdata : joinChar '/' (c0 :: cs0) = ['.'] := congrArg String.data hh
      cases cs0 with
      | nil => exact (hdir c0 (List.mem_cons_self c0 [])).2.2.1 (by simpa [joinChar] using hdata)
      | cons y ys =>
        have hcnt := hjc
        rw [hdata] at hcnt
        simp [countSlashL] at hcnt
    have hf_nopfx : pyStartswith ⟨fname⟩ "/" = false := hasPfxL_slash_false fname hfhead
    have hj_noend : pyEndswith ⟨joinChar '/' (c0 :: cs0)⟩ "/" = false := by
      show hasPfxL ['/'] (joinChar '/' (c0 :: cs0)).reverse = false
      apply hasPfxL_slash_false
      rw [List.head?_reverse]
      exact hjl
    have hjoin : pyJoin ⟨joinChar '/' (c0 :: cs0)⟩ ⟨fname⟩ =
        ⟨joinChar '/' ((c0 :: cs0) ++ [fname])⟩ := by
      unfold pyJoin
      rw [hf_nopfx]
      have hbne : ((⟨joinChar '/' (c0 :: cs0)⟩ : String) == "") = false := by
        apply beq_false_of_ne
        intro hh
        exact hjne (congrArg String.data hh)
      rw [hbne, hj_noend]
      show (⟨joinChar '/' (c0 :: cs0)⟩ : String) ++ "/" ++ ⟨fname⟩ = _
      have happ : ((⟨joinChar '/' (c0 :: cs0)⟩ : String) ++ "/" ++ ⟨fname⟩).data =
          joinChar '/' (c0 :: cs0) ++ '/' :: fname := by
        show (joinChar '/' (c0 :: cs0) ++ ['/']) ++ fname = _
        simp
      have hlast2 : joinChar '/' ((c0 :: cs0) ++ [fname]) =
          joinChar '/' (c0 :: cs0) ++ '/' :: fname :=
        joinChar_append_last '/' (c0 :: cs0) fname (by simp)
      apply congrArg String.mk at happ
      calc (⟨joinChar '/' (c0 :: cs0)⟩ : String) ++ "/" ++ ⟨fname⟩
          = ⟨joinChar '/' (c0 :: cs0) ++ '/' :: fname⟩ := happ
        _ = ⟨joinChar '/' ((c0 :: cs0) ++ [fname])⟩ := by rw [hlast2]
    have hrel : relPathOf (dirStr (c0 :: cs0)) ⟨fname⟩ =
        normpath ⟨joinChar '/' ((c0 :: cs0) ++ [fname])⟩ := by
      show (if (⟨joinChar '/' (c0 :: cs0)⟩ : String) == "." then (⟨fname⟩ : String)
            else normpath (pyJoin ⟨joinChar '/' (c0 :: cs0)⟩ ⟨fname⟩)) = _
      rw [hnotdot, hjoin]
      simp
    have hgood2 : ∀ c ∈ (c0 :: cs0) ++ [fname], GoodComp c := by
      intro c hc
      rcases List.mem_append.mp hc with hc | hc
      · exact hdir c hc
      · rw [List.mem_singleton.mp hc]
        exact ⟨hf1, hf2, hf3, hf4⟩
    obtain ⟨hjne2, hjh2, hjl2, hjc2⟩ := joinChar_facts ((c0 :: cs0) ++ [fname]) (by simp)
      (fun c hc => ⟨(hgood2 c hc).1, (hgood2 c hc).2.1⟩)
    rw [hrel, normpath_joinChar _ (by simp) hgood2,
      tree_depth_of_clean _ hjne2 hjh2 hjl2]
    simp only [List.length_append, List.length_cons, List.length_nil] at hjc2 ⊢
    omega

theorem pathsOf_sortIndex (idx : Tree) (g : String) :
    pathsOf (sortIndex idx) g = sortLe pathKeyLE (pathsOf idx g) := by
  induction idx with
  | nil => simp [sortIndex, pathsOf, alookup, sortLe]
  | cons hd tl ih =>
    obtain ⟨a, ps⟩ := hd
    by_cases h : a = g
    · subst h; simp [sortIndex, pathsOf, alookup]
    · simp only [sortIndex, List.map_cons] at *
      simpa [pathsOf, alookup, h] using ih

theorem strLeL_refl (l : List Char) : strLeL l l = true := by
  induction l with
  | nil => rfl
  | cons a as ih => simp [strLeL, ih]

theorem pathKeyLE_refl (p : String) : pathKeyLE p p = true := by
  simp [pathKeyLE, pyStrLe, strLeL_refl]

theorem pyRstripSlash_eq_self (s : String) (h : pyEndswith s "/" = false) :
    pyRstripSlash s = s := by
  obtain ⟨l⟩ := s
  have h' : hasPfxL ['/'] l.reverse = false := h
  show String.mk ((l.reverse.dropWhile (· == '/')).reverse) = String.mk l
  cases hrev : l.reverse with
  | nil =>
    have hl : l = [] := by simpa using congrArg List.reverse hrev
    subst hl
    rfl
  | cons c rest =>
    rw [hrev] at h'
    have hc : ¬ ((fun x => x == '/') c = true) := by
      intro hb
      rw [eq_of_beq hb] at h'
      simp [hasPfxL] at h'
    rw [List.dropWhile_cons, if_neg hc, ← hrev, List.reverse_reverse]

/-! ### Frame lemmas for the cache layer -/

theorem get_config_error_frame (s : Snapshot) (cache : ConfigCache) (path : String)
    (t : ConfTypes) (req : Option (List String)) (e : Err) (cache2 : ConfigCache)
    (h : _get_config s cache path t req = (.error e, cache2)) : cache2 = cache := by
  unfold _get_config at h
  split at h
  · injection h with h1 h2; exact h2.symm
  · split at h
    · split at h
      · injection h with h1 h2; exact Except.noConfusion h1
      · split at h
        · injection h with h1 h2; exact h2.symm
        · injection h with h1 h2; exact Except.noConfusion h1
    · split at h
      · injection h with h1 h2; exact h2.symm
      · injection h with h1 h2; exact Except.noConfusion h1

theorem get_config_snd_frame (s : Snapshot) (cache : ConfigCache) (path : String)
    (t : ConfTypes) (req : Option (List String)) (p : String) (t2 : ConfTypes)
    (hp : p ≠ path) :
    alookup (_get_config s cache path t req).2 (p, t2) = alookup cache (p, t2) := by
  have hkey : ((p, t2) : String × ConfTypes) ≠ (path, t) :=
    fun hh => hp (congrArg Prod.fst hh)
  unfold _get_config
  split
  · rfl
  · split
    · split
      · rfl
      · split
        · rfl
        · rw [alookup_dictPut, if_neg hkey]
    · split
      · rfl
      · rw [alookup_dictPut, if_neg hkey]

theorem get_tree_error_frame (s : Snapshot) (tc : TreeCache) (root : String)
    (e : Err) (tc2 : TreeCache)
    (h : _get_tree s tc root = (.error e, tc2)) : tc2 = tc := by
  unfold _get_tree at h
  split at h
  · injection h with h1 h2; exact Except.noConfusion h1
  · split at h
    · injection h with h1 h2; exact h2.symm
    · injection h with h1 h2; exact Except.noConfusion h1

theorem fcr_init_core_error_frame (s : Snapshot) (cwd : String) (c0 : Caches)
    (config_path : String) (t : ConfTypes) (req : Option (List String))
    (e : Err) (caches2 : Caches)
    (h : fcr_init_core s cwd c0 config_path t req = (.error e, caches2)) :
    caches2.tree = c0.tree
    ∧ ∀ p t2, p ≠ config_path →
        alookup caches2.config (p, t2) = alookup c0.config (p, t2) := by
  unfold fcr_init_core at h
  cases hg : _get_config s c0.config config_path t req with
  | mk res cc =>
    rw [hg] at h
    have hcc : ∀ p t2, p ≠ config_path → alookup cc (p, t2) = alookup c0.config (p, t2) := by
      intro p t2 hp
      have := get_config_snd_frame s c0.config config_path t req p t2 hp
      rw [hg] at this
      exact this
    cases res with
    | error e2 =>
      injection h with h1 h2
      rw [← h2]
      exact ⟨rfl, hcc⟩
    | ok cfg =>
      simp only at h
      by_cases hroot : ((alookup cfg "root").getD "" == "") = true
      · rw [if_pos hroot] at h
        injection h with h1 h2
        rw [← h2]
        exact ⟨rfl, hcc⟩
      · rw [if_neg hroot] at h
        cases ht : _get_tree s c0.tree (abspath cwd ((alookup cfg "root").getD "")) with
        | mk tres tc =>
          rw [ht] at h
          cases tres with
          | error e3 =>
            injection h with h1 h2
            have htc : tc = c0.tree := get_tree_error_frame s c0.tree _ _ _ ht
            rw [← h2]
            exact ⟨htc, hcc⟩
          | ok tr =>
            injection h with h1 h2
            exact Except.noConfusion h1

/-! ### Claim theorems -/

/-- C4: a config-cache lookup re-parses (with required-key validation, part
of load_config) and replaces the entry exactly when there is no entry or the
stored mtime differs from the file's current mtime; on an mtime match the
cached parse is returned unchanged (whatever the file's current content is);
and a missing path fails with FileNotFoundError regardless of cache state. -/
theorem C4_config_cache_mtime_gate (s : Snapshot) (cache : ConfigCache) (path : String)
    (t : ConfTypes) (req : Option (List String)) :
    (alookup s.files path = none →
      _get_config s cache path t req = (.error .fileNotFound, cache))
    ∧ (∀ fi, alookup s.files path = some fi →
        (∀ e, alookup cache (path, t) = some e → e.mtime ≠ fi.mtime) →
        _get_config s cache path t req =
          (match load_config s path t req with
           | .error er => (.error er, cache)
           | .ok cfg => (.ok cfg, dictPut cache (path, t) ⟨fi.mtime, cfg⟩)))
    ∧ (∀ fi e, alookup s.files path = some fi →
        alookup cache (path, t) = some e → e.mtime = fi.mtime →
        _get_config s cache path t req = (.ok e.config, cache)) := by
  refine ⟨fun hnone => ?_, fun fi hfi hstale => ?_, fun fi e hfi he hmt => ?_⟩
  · simp [_get_config, hnone]
  · cases hent : alookup cache (path, t) with
    | none => simp only [_get_config, hfi, hent]
    | some e =>
      have hne : e.mtime ≠ fi.mtime := hstale e hent
      simp only [_get_config, hfi, hent, if_neg hne]
  · simp only [_get_config, hfi, he, if_pos hmt]

/-- C4 witness: concrete hit, stale and missing scenarios. -/
theorem C4_config_cache_mtime_gate_witness :
    _get_config ⟨[("/a.conf", ⟨7, ["x=1"], .error ()⟩)], []⟩
        [(("/a.conf", ConfTypes.KEY_VALUE), ⟨7, [("x", "0")]⟩)]
        "/a.conf" ConfTypes.KEY_VALUE none
      = (.ok [("x", "0")], [(("/a.conf", ConfTypes.KEY_VALUE), ⟨7, [("x", "0")]⟩)])
    ∧ _get_config ⟨[("/a.conf", ⟨7, ["x=1"], .error ()⟩)], []⟩
        [(("/a.conf", ConfTypes.KEY_VALUE), ⟨6, [("x", "0")]⟩)]
        "/a.conf" ConfTypes.KEY_VALUE none
      = (.ok [("x", "1")],
         [(("/a.conf", ConfTypes.KEY_VALUE), ⟨7, [("x", "1")]⟩)])
    ∧ _get_config ⟨[("/a.conf", ⟨7, ["x=1"], .error ()⟩)], []⟩
        [(("/a.conf", ConfTypes.KEY_VALUE), ⟨7, [("x", "0")]⟩)]
        "/missing.conf" ConfTypes.KEY_VALUE none
      = (.error .fileNotFound, [(("/a.conf", ConfTypes.KEY_VALUE), ⟨7, [("x", "0")]⟩)]) := by
  refine ⟨?_, ?_, ?_⟩
  · exact (C4_config_cache_mtime_gate ⟨[("/a.conf", ⟨7, ["x=1"], .error ()⟩)], []⟩
      [(("/a.conf", ConfTypes.KEY_VALUE), ⟨7, [("x", "0")]⟩)]
      "/a.conf" ConfTypes.KEY_VALUE none).2.2 ⟨7, ["x=1"], .error ()⟩ ⟨7, [("x", "0")]⟩
      rfl rfl rfl
  · refine ((C4_config_cache_mtime_gate ⟨[("/a.conf", ⟨7, ["x=1"], .error ()⟩)], []⟩
      [(("/a.conf", ConfTypes.KEY_VALUE), ⟨6, [("x", "0")]⟩)]
      "/a.conf" ConfTypes.KEY_VALUE none).2.1 ⟨7, ["x=1"], .error ()⟩ rfl ?_).trans rfl
    intro e he
    have h6 : (⟨6, [("x", "0")]⟩ : CacheEntry) = e := Option.some.inj he
    rw [← h6]
    decide
  · exact (C4_config_cache_mtime_gate ⟨[("/a.conf", ⟨7, ["x=1"], .error ()⟩)], []⟩
      [(("/a.conf", ConfTypes.KEY_VALUE), ⟨7, [("x", "0")]⟩)]
      "/missing.conf" ConfTypes.KEY_VALUE none).1 rfl

/-- C9: on an mtime-matching cache hit, _get_config returns the cached
mapping without re-running required-key validation — a declared required
key missing from the cached configuration raises nothing — while the same
lookup without a cache entry (a cold load) raises the missing-key error. -/
theorem C9_cache_hit_skips_validation (s : Snapshot) (cache : ConfigCache)
    (path : String) (t : ConfTypes) (fi : FileInfo) (e : CacheEntry) (k : String)
    (hfi : alookup s.files path = some fi)
    (hentry : alookup cache (path, t) = some e)
    (hmt : e.mtime = fi.mtime)
    (_hmiss : alookup e.config k = none)
    (hcold : load_config s path t (some [k]) = .error .missingRequiredKeys) :
    _get_config s cache path t (some [k]) = (.ok e.config, cache)
    ∧ ∀ cache2, alookup cache2 (path, t) = none →
        _get_config s cache2 path t (some [k]) = (.error .missingRequiredKeys, cache2) := by
  constructor
  · simp only [_get_config, hfi, hentry, if_pos hmt]
  · intro cache2 h2
    simp only [_get_config, hfi, h2, hcold]

/-- C9 witness: the cached config lacks required key z but the hit returns
it; the cold load of the same file with the same required keys raises. -/
theorem C9_cache_hit_skips_validation_witness :
    _get_config ⟨[("/a.conf", ⟨3, ["x=1"], .error ()⟩)], []⟩
        [(("/a.conf", ConfTypes.KEY_VALUE), ⟨3, [("x", "0")]⟩)]
        "/a.conf" ConfTypes.KEY_VALUE (some ["z"])
      = (.ok [("x", "0")], [(("/a.conf", ConfTypes.KEY_VALUE), ⟨3, [("x", "0")]⟩)])
    ∧ _get_config ⟨[("/a.conf", ⟨3, ["x=1"], .error ()⟩)], []⟩ []
        "/a.conf" ConfTypes.KEY_VALUE (some ["z"])
      = (.error .missingRequiredKeys, []) := by
  have h := C9_cache_hit_skips_validation
    ⟨[("/a.conf", ⟨3, ["x=1"], .error ()⟩)], []⟩
    [(("/a.conf", ConfTypes.KEY_VALUE), ⟨3, [("x", "0")]⟩)]
    "/a.conf" ConfTypes.KEY_VALUE ⟨3, ["x=1"], .error ()⟩ ⟨3, [("x", "0")]⟩ "z"
    rfl rfl rfl rfl rfl
  exact ⟨h.1, h.2 [] rfl⟩

/-- C10: a non-blank line that neither starts with '#' nor contains '='
makes the key-value parser fail with the tuple-unpacking ValueError (its
own error kind), rather than the line being skipped. -/
theorem C10_malformed_kv_line :
    load_config ⟨[("/b.conf", ⟨1, ["foo"], .error ()⟩)], []⟩ "/b.conf"
        ConfTypes.KEY_VALUE none = .error .valueError
    ∧ splitEq1 (pyStrip "foo") = none := ⟨rfl, rfl⟩

/-- C8: the SQL decoder skips comment-prefixed and blank lines, emits a
statement (lines joined by one space) when a line ends in ';', and the
three-line example decodes to exactly the two statements. -/
theorem C8_sql_decode :
    load_sql ⟨[("/q.sql",
        ⟨1, ["-- comment", "SELECT 1;", "INSERT INTO t VALUES (1);"], .error ()⟩)], []⟩
        "/q.sql" = .ok ["SELECT 1;", "INSERT INTO t VALUES (1);"]
    ∧ (∀ line rest cur, (pyStartswith (pyStrip line) "--" || pyStrip line == "") = true →
        sqlLines (line :: rest) cur = sqlLines rest cur)
    ∧ (∀ line rest cur, (pyStartswith (pyStrip line) "--" || pyStrip line == "") = false →
        pyEndswith (pyStrip line) ";" = true →
        sqlLines (line :: rest) cur =
          pyStrip (joinSp (cur ++ [pyStrip line])) :: sqlLines rest []) := by
  refine ⟨rfl, ?_, ?_⟩
  · intro line rest cur h
    simp only [sqlLines, h, if_true]
  · intro line rest cur h h2
    simp [sqlLines, h, h2]

/-- C8 witness: the skip and emit rules at concrete lines. -/
theorem C8_sql_decode_witness :
    sqlLines ["-- note", "SELECT 2;"] [] = sqlLines ["SELECT 2;"] []
    ∧ sqlLines ["SELECT 2;"] [] = ["SELECT 2;"] := by
  constructor
  · exact C8_sql_decode.2.1 "-- note" ["SELECT 2;"] [] rfl
  · exact (C8_sql_decode.2.2 "SELECT 2;" [] [] rfl rfl).trans rfl

/-- C7: after the bootstrap config loads, the constructor fails with the
missing-root error iff the root key is absent or empty; otherwise it
resolves the root to an absolute path and builds or fetches that root's
tree through the tree cache. -/
theorem C7_init_root_key (s : Snapshot) (cwd : String) (caches c0 : Caches)
    (config_path : String) (t : ConfTypes) (req : Option (List String))
    (force_refresh : Bool) (cfg : Config) (cc : ConfigCache)
    (hc0 : (if force_refresh then invalidate_caches caches (some config_path) none cwd
            else caches) = c0)
    (hcfg : _get_config s c0.config config_path t req = (.ok cfg, cc)) :
    ((alookup cfg "root" = none ∨ alookup cfg "root" = some "") →
      fcr_init s cwd caches config_path t req force_refresh =
        (.error .missingRoot, ⟨cc, c0.tree⟩))
    ∧ (∀ r, alookup cfg "root" = some r → r ≠ "" →
        ∀ res tc, _get_tree s c0.tree (abspath cwd r) = (res, tc) →
          fcr_init s cwd caches config_path t req force_refresh =
            (res.map (fun tr => Facade.mk cfg (abspath cwd r) tr), ⟨cc, tc⟩)) := by
  constructor
  · intro hroot
    unfold fcr_init
    rw [hc0]
    unfold fcr_init_core
    rw [hcfg]
    rcases hroot with h | h <;> simp [h]
  · intro r hr hne res tc htree
    unfold fcr_init
    rw [hc0]
    unfold fcr_init_core
    rw [hcfg]
    have hb : (r == "") = false := by
      cases hbe : (r == "") with
      | false => rfl
      | true => exact absurd (eq_of_beq hbe) hne
    simp only [hr, Option.getD_some, hb, Bool.false_eq_true, if_false, htree]
    cases res <;> rfl

/-- C7 witness: a config without root fails with missing-root; a config
with root "/r" resolves it and fetches the (empty) tree for "/r". -/
theorem C7_init_root_key_witness :
    fcr_init ⟨[("/c.conf", ⟨1, ["a=b"], .error ()⟩)], []⟩ "/" ⟨[], []⟩ "/c.conf"
        ConfTypes.KEY_VALUE none false =
      (.error .missingRoot,
       ⟨[(("/c.conf", ConfTypes.KEY_VALUE), ⟨1, [("a", "b")]⟩)], []⟩)
    ∧ fcr_init ⟨[("/c2.conf", ⟨1, ["root=/r"], .error ()⟩)], [("/r", [])]⟩ "/" ⟨[], []⟩
        "/c2.conf" ConfTypes.KEY_VALUE none false =
      (.ok ⟨[("root", "/r")], "/r", []⟩,
       ⟨[(("/c2.conf", ConfTypes.KEY_VALUE), ⟨1, [("root", "/r")]⟩)], [("/r", [])]⟩) := by
  constructor
  · exact (C7_init_root_key ⟨[("/c.conf", ⟨1, ["a=b"], .error ()⟩)], []⟩ "/" ⟨[], []⟩ ⟨[], []⟩
      "/c.conf" ConfTypes.KEY_VALUE none false [("a", "b")]
      [(("/c.conf", ConfTypes.KEY_VALUE), ⟨1, [("a", "b")]⟩)] rfl rfl).1 (Or.inl rfl)
  · exact ((C7_init_root_key ⟨[("/c2.conf", ⟨1, ["root=/r"], .error ()⟩)], [("/r", [])]⟩ "/"
      ⟨[], []⟩ ⟨[], []⟩ "/c2.conf" ConfTypes.KEY_VALUE none false [("root", "/r")]
      [(("/c2.conf", ConfTypes.KEY_VALUE), ⟨1, [("root", "/r")]⟩)] rfl rfl).2
      "/r" rfl (by decide) (.ok []) [("/r", [])] rfl).trans rfl

/-- C5 counterexample: facade construction that fails (missing root key in
the parsed bootstrap config) still adds the parsed config as a new
config-cache entry, so a failing operation can leave the caches changed. -/
theorem C5_counterexample_init_mutates :
    (fcr_init ⟨[("/c.conf", ⟨5, ["a=b"], .error ()⟩)], []⟩ "/" ⟨[], []⟩ "/c.conf"
        ConfTypes.KEY_VALUE none false).1 = .error .missingRoot
    ∧ (fcr_init ⟨[("/c.conf", ⟨5, ["a=b"], .error ()⟩)], []⟩ "/" ⟨[], []⟩ "/c.conf"
        ConfTypes.KEY_VALUE none false).2 ≠ (⟨[], []⟩ : Caches) := by
  exact ⟨rfl, by decide⟩

/-- C5 amended: a failing config-cache lookup and a failing tree-cache
lookup leave their cache exactly as before, and find mutates no cache (it
is a pure function of the prebuilt tree); a failing facade construction
leaves the tree cache unchanged and changes no config-cache key other than
those bearing the given config path (force-refresh may remove those, and
the successfully parsed bootstrap config may be stored before the failure). -/
theorem C5_amended_error_frame :
    (∀ s cache path t req e cache2,
      _get_config s cache path t req = (.error e, cache2) → cache2 = cache)
    ∧ (∀ s tc root e tc2, _get_tree s tc root = (.error e, tc2) → tc2 = tc)
    ∧ (∀ s cwd caches config_path t req force e caches2,
        fcr_init s cwd caches config_path t req force = (.error e, caches2) →
          caches2.tree = caches.tree
          ∧ ∀ p t2, p ≠ config_path →
              alookup caches2.config (p, t2) = alookup caches.config (p, t2)) := by
  refine ⟨fun s cache path t req e cache2 h => get_config_error_frame s cache path t req e cache2 h,
    fun s tc root e tc2 h => get_tree_error_frame s tc root e tc2 h,
    fun s cwd caches config_path t req force e caches2 h => ?_⟩
  unfold fcr_init at h
  obtain ⟨ht, hcfg⟩ := fcr_init_core_error_frame s cwd _ config_path t req e caches2 h
  cases force with
  | false => exact ⟨ht, hcfg⟩
  | true =>
    refine ⟨ht, fun p t2 hp => ?_⟩
    have h1 := hcfg p t2 hp
    have h2 : alookup (invalidate_caches caches (some config_path) none cwd).config (p, t2)
        = alookup caches.config (p, t2) := by
      show alookup (dropPathEntries caches.config config_path) (p, t2) = _
      rw [alookup_dropPathEntries, if_neg hp]
    exact h1.trans h2

/-- C5 amended witness: the failing construction of the counterexample
leaves the tree cache empty and other config keys unaffected, and concrete
failing cache lookups leave their caches intact. -/
theorem C5_amended_error_frame_witness :
    ([] : ConfigCache) = []
    ∧ ([("/r", [])] : TreeCache) = [("/r", [])]
    ∧ (fcr_init ⟨[("/c.conf", ⟨5, ["a=b"], .error ()⟩)], []⟩ "/" ⟨[], []⟩ "/c.conf"
        ConfTypes.KEY_VALUE none false).2.tree = []
    ∧ alookup (fcr_init ⟨[("/c.conf", ⟨5, ["a=b"], .error ()⟩)], []⟩ "/" ⟨[], []⟩ "/c.conf"
        ConfTypes.KEY_VALUE none false).2.config ("/other.conf", ConfTypes.KEY_VALUE)
      = alookup ([] : ConfigCache) ("/other.conf", ConfTypes.KEY_VALUE) := by
  refine ⟨?_, ?_, ?_, ?_⟩
  · exact C5_amended_error_frame.1 ⟨[], []⟩ [] "/x.conf" ConfTypes.KEY_VALUE none
      .fileNotFound [] rfl
  · exact C5_amended_error_frame.2.1 ⟨[], []⟩ [("/r", [])] "" .invalidRoot [("/r", [])] rfl
  · exact (C5_amended_error_frame.2.2 ⟨[("/c.conf", ⟨5, ["a=b"], .error ()⟩)], []⟩ "/" ⟨[], []⟩
      "/c.conf" ConfTypes.KEY_VALUE none false .missingRoot _ rfl).1
  · exact (C5_amended_error_frame.2.2 ⟨[("/c.conf", ⟨5, ["a=b"], .error ()⟩)], []⟩ "/" ⟨[], []⟩
      "/c.conf" ConfTypes.KEY_VALUE none false .missingRoot _ rfl).2
      "/other.conf" ConfTypes.KEY_VALUE (by decide)

/-- C6: no arguments empties both caches; a config path removes exactly
the config entries for that path (every kind), tree cache untouched; a
root removes exactly the tree entry of the normalized root, config cache
untouched. -/
theorem C6_invalidate_caches (caches : Caches) (cwd : String) :
    invalidate_caches caches none none cwd = (⟨[], []⟩ : Caches)
    ∧ (∀ p, (invalidate_caches caches (some p) none cwd).tree = caches.tree
        ∧ ∀ p2 t, alookup (invalidate_caches caches (some p) none cwd).config (p2, t) =
            if p2 = p then none else alookup caches.config (p2, t))
    ∧ (∀ r, (caches.tree.map Prod.fst).Nodup →
        (invalidate_caches caches none (some r) cwd).config = caches.config
        ∧ ∀ r2, alookup (invalidate_caches caches none (some r) cwd).tree r2 =
            if r2 = abspath cwd r then none else alookup caches.tree r2) := by
  refine ⟨rfl, fun p => ⟨rfl, fun p2 t => ?_⟩, fun r hnd => ⟨rfl, fun r2 => ?_⟩⟩
  · exact alookup_dropPathEntries caches.config p p2 t
  · exact alookup_eraseKey_of_nodup caches.tree (abspath cwd r) r2 hnd

/-- C6 witness: root-keyed invalidation on a concrete cache pair. -/
theorem C6_invalidate_caches_witness :
    (invalidate_caches ⟨[(("/a", ConfTypes.KEY_VALUE), ⟨1, []⟩)], [("/r", [])]⟩
        none (some "/r") "/").config = [(("/a", ConfTypes.KEY_VALUE), ⟨1, []⟩)]
    ∧ alookup (invalidate_caches ⟨[(("/a", ConfTypes.KEY_VALUE), ⟨1, []⟩)], [("/r", [])]⟩
        none (some "/r") "/").tree "/r" = none := by
  have h := (C6_invalidate_caches ⟨[(("/a", ConfTypes.KEY_VALUE), ⟨1, []⟩)], [("/r", [])]⟩
    "/").2.2 "/r" (by decide)
  exact ⟨h.1, (h.2 "/r").trans (by decide)⟩

/-- C2: when the base filename of the normalized name is in the tree index
and the effective scope is empty or denotes the root itself ("."), find
selects the first candidate; when the candidate list carries tree_scan's
sort order, that first element is minimal in (depth, lexicographic path). -/
theorem C2_find_unscoped_first (tree : Tree) (name : String) (start : Option String)
    (c : String) (cs : List String)
    (hname : name ≠ "")
    (hlk : alookup tree (basename (normpath name)) = some (c :: cs))
    (hscope : effectiveScope start (dirname (normpath name)) = ""
      ∨ effectiveScope start (dirname (normpath name)) = ".")
    (hsorted : (c :: cs).Pairwise (fun a b => pathKeyLE a b = true)) :
    find_select tree name start = .ok c ∧ ∀ q ∈ c :: cs, pathKeyLE c q = true := by
  have hcond : ¬ ((name == "") = true) := fun hb => hname (eq_of_beq hb)
  constructor
  · unfold find_select
    rw [if_neg hcond, hlk]
    rcases hscope with h | h <;> simp [h]
  · intro q hq
    rcases List.mem_cons.mp hq with rfl | hq2
    · exact pathKeyLE_refl q
    · exact (List.pairwise_cons.mp hsorted).1 q hq2

/-- C2 witness: the depth-1 candidate is returned for an unscoped lookup
over a two-candidate sorted list. -/
theorem C2_find_unscoped_first_witness :
    find_select [("x.txt", ["x.txt", "a/x.txt"])] "x.txt" none = .ok "x.txt"
    ∧ ∀ q ∈ ("x.txt" :: ["a/x.txt"]), pathKeyLE "x.txt" q = true :=
  C2_find_unscoped_first [("x.txt", ["x.txt", "a/x.txt"])] "x.txt" none "x.txt" ["a/x.txt"]
    (by decide) rfl (Or.inl rfl) (by decide)

/-- C3: with a non-empty, non-root effective scope, find scans the
candidates in their existing order and returns the first one equal to the
scope or starting with the scope followed by "/"; if none matches it fails
with not-found-under-scope, and an absent base filename fails with
not-found-under-root. -/
theorem C3_find_scoped (tree : Tree) (name : String) (start : Option String) (scope : String)
    (hname : name ≠ "")
    (hs : effectiveScope start (dirname (normpath name)) = scope)
    (hne : scope ≠ "") (hnr : scope ≠ ".")
    (hnoslash : pyEndswith scope "/" = false) :
    ((alookup tree (basename (normpath name)) = none
      ∨ alookup tree (basename (normpath name)) = some []) →
      find_select tree name start = .error .notFoundUnderRoot)
    ∧ (∀ c cs, alookup tree (basename (normpath name)) = some (c :: cs) →
        find_select tree name start =
          (match (c :: cs).find?
              (fun rp => rp == scope || pyStartswith rp (scope ++ "/")) with
           | some rp => .ok rp
           | none => .error .notFoundUnderScope)) := by
  have hcond : ¬ ((name == "") = true) := fun hb => hname (eq_of_beq hb)
  have hb1 : (scope == "") = false := by
    cases hbe : (scope == "") with
    | false => rfl
    | true => exact absurd (eq_of_beq hbe) hne
  have hb2 : (scope == ".") = false := by
    cases hbe : (scope == ".") with
    | false => rfl
    | true => exact absurd (eq_of_beq hbe) hnr
  constructor
  · intro hroot
    unfold find_select
    rw [if_neg hcond]
    rcases hroot with h | h <;> rw [h]
  · intro c cs hlk
    unfold find_select
    rw [if_neg hcond, hlk, hs, pyRstripSlash_eq_self scope hnoslash, hb1, hb2]
    rfl

/-- C3 witness: scoped hits, scoped miss and absent filename at concrete
inputs. -/
theorem C3_find_scoped_witness :
    find_select [("x.txt", ["a/x.txt", "b/x.txt"])] "x.txt" (some "b") = .ok "b/x.txt"
    ∧ find_select [("x.txt", ["a/x.txt", "b/x.txt"])] "x.txt" (some "c")
        = .error .notFoundUnderScope
    ∧ find_select [("x.txt", ["a/x.txt", "b/x.txt"])] "y.txt" (some "b")
        = .error .notFoundUnderRoot := by
  refine ⟨?_, ?_, ?_⟩
  · exact ((C3_find_scoped [("x.txt", ["a/x.txt", "b/x.txt"])] "x.txt" (some "b") "b"
      (by decide) rfl (by decide) (by decide) rfl).2 "a/x.txt" ["b/x.txt"] rfl).trans rfl
  · exact ((C3_find_scoped [("x.txt", ["a/x.txt", "b/x.txt"])] "x.txt" (some "c") "c"
      (by decide) rfl (by decide) (by decide) rfl).2 "a/x.txt" ["b/x.txt"] rfl).trans rfl
  · exact (C3_find_scoped [("x.txt", ["a/x.txt", "b/x.txt"])] "y.txt" (some "b") "b"
      (by decide) rfl (by decide) (by decide) rfl).1 (Or.inl rfl)

/-- C1: for a fixed root and filesystem snapshot, the index tree_scan
returns maps every base filename to exactly the relative paths the walk
yields for files with that name (a permutation of the collected group),
each group list is sorted ascending primarily by the source's depth
measure and secondarily by lexicographic path comparison, and on normal
component paths that depth measure gives 1 for a file directly in the root
and grows by 1 per additional nested directory. -/
theorem C1_tree_scan_index (s : Snapshot) (root : String) (idx : Tree)
    (h : tree_scan s root = .ok idx) :
    (∀ f, (pathsOf idx f).Perm (collectPaths ((alookup s.dirs root).getD []) f)
      ∧ (pathsOf idx f).Pairwise (fun a b =>
          tree_depth a < tree_depth b ∨ (tree_depth a = tree_depth b ∧ pyStrLe a b = true)))
    ∧ (∀ dirComps fname, (∀ c ∈ dirComps, GoodComp c) → GoodComp fname →
        tree_depth (relPathOf (dirStr dirComps) ⟨fname⟩) = dirComps.length + 1) := by
  have hidx : idx = sortIndex (buildIndex ((alookup s.dirs root).getD [])) := by
    unfold tree_scan at h
    split at h
    · exact Except.noConfusion h
    · exact (Except.ok.inj h).symm
  subst hidx
  refine ⟨fun f => ⟨?_, ?_⟩,
    fun dirComps fname hdir hf => tree_depth_relPathOf dirComps fname hdir hf⟩
  · rw [pathsOf_sortIndex]
    have hb : pathsOf (buildIndex ((alookup s.dirs root).getD [])) f =
        selEntries (entriesOf ((alookup s.dirs root).getD [])) f := by
      unfold buildIndex
      rw [pathsOf_foldl_insert]
      simp [pathsOf, alookup]
    refine (sortLe_perm pathKeyLE _).trans ?_
    rw [hb]
    exact selEntries_entriesOf_perm _ f
  · rw [pathsOf_sortIndex]
    have hs := sortLe_sorted pathKeyLE pathKeyLE_trans pathKeyLE_total
      (pathsOf (buildIndex ((alookup s.dirs root).getD [])) f)
    exact hs.imp (fun hab => (pathKeyLE_iff _ _).mp hab)

/-- C1 witness: a two-directory snapshot whose group for x.txt collects
both paths sorted depth-first, plus the depth law at a concrete path. -/
theorem C1_tree_scan_index_witness :
    (pathsOf [("x.txt", ["x.txt", "a/x.txt"])] "x.txt").Perm
        (collectPaths [(".", ["x.txt"]), ("a", ["x.txt"])] "x.txt")
    ∧ (pathsOf [("x.txt", ["x.txt", "a/x.txt"])] "x.txt").Pairwise (fun a b =>
        tree_depth a < tree_depth b ∨ (tree_depth a = tree_depth b ∧ pyStrLe a b = true))
    ∧ tree_depth (relPathOf (dirStr [['a']]) ⟨['x', '.', 't', 'x', 't']⟩) = 2 := by
  have h := C1_tree_scan_index ⟨[], [("/r", [(".", ["x.txt"]), ("a", ["x.txt"])])]⟩ "/r"
    [("x.txt", ["x.txt", "a/x.txt"])] rfl
  refine ⟨(h.1 "x.txt").1, (h.1 "x.txt").2, ?_⟩
  have hga : GoodComp ['a'] := ⟨by decide, by decide, by decide, by decide⟩
  have hgf : GoodComp ['x', '.', 't', 'x', 't'] := ⟨by decide, by decide, by decide, by decide⟩
  have := h.2 [['a']] ['x', '.', 't', 'x', 't']
    (by intro c hc; rw [List.mem_singleton.mp hc]; exact hga) hgf
  simpa using this

end FCRModel
